import Mathlib

/-!
Verification of the flipper IR dump decoder.

This file embeds the core of the `flipper` repository in Lean:

* `flipper-utils/src/lib.rs` — the `round_to` quantizer (on `u32`, so the
  addition is taken modulo `2^32`, matching release-mode wrapping semantics);
* `flipper-ir-dumps/src/signal/parsed/parsing.rs` — the timing classifier
  (`stream_to_signals`) and the packet grammar (`ir_dump_start`,
  `packet_bit`, `packet_start`, `packet_end`, `single_packet`,
  `ir_dump_to_packets`, `stream_to_packets`);
* `flipper-ir-dumps/src/dump.rs` — the nom-based text parser for dump
  documents (`dump_file` and its field parsers).

nom's `IResult` is embedded as `PRes`: `ok value rest` for a successful
parse, `fail` for a nom error, and `crash` for a Rust panic (the `version`
field parser calls `.parse().unwrap()` and can panic).  The repeated
combinators (`many0`, `many1`, `separated_list0`) are embedded with an
explicit fuel argument set to the input length; every iteration of each
loop consumes at least one element, so this fuel is never exhausted
(certified by the `*_eq` fixed-point lemmas below), and the definitions
stay executable by `rfl`/`decide`.
-/

namespace Flipper

/-- The `u32` modulus. -/
def U32 : Nat := 2 ^ 32

/-- `flipper_utils::round_to`: `(x + round_to / 2) / round_to * round_to`
on `u32`.  The addition wraps modulo `2^32`. -/
def round_to (x r : Nat) : Nat := ((x + r / 2) % U32) / r * r

/-- `DurationClass` from `parsing.rs`. -/
inductive DurationClass where
  | Short : DurationClass
  | Long : DurationClass
  | Unusual : Nat → DurationClass
  deriving DecidableEq, Repr

/-- `SignalComponent` from `parsing.rs`. -/
inductive SignalComponent where
  | Pulse : SignalComponent
  | Pause : SignalComponent
  deriving DecidableEq, Repr

/-- `TimeSlot` from `parsing.rs`. -/
structure TimeSlot where
  duration : DurationClass
  component : SignalComponent
  deriving DecidableEq, Repr

/-- `SHORT_DURATION` from `parsing.rs`. -/
def SHORT_DURATION : Nat := 550

/-- `LONG_BIT_DURATION` from `parsing.rs`. -/
def LONG_BIT_DURATION : Nat := 3 * SHORT_DURATION

/-- `ROUND_TO` from `parsing.rs`. -/
def ROUND_TO : Nat := SHORT_DURATION

/-- `Packet` from `parsed.rs`: a bit vector.  The Rust `BitVec` is embedded
as a list of booleans, index 0 first. -/
structure Packet where
  data : List Bool
  deriving DecidableEq, Repr

/-- The classification of one duration at index `i`, as in the two `map`
steps of `stream_to_signals`: the component is chosen by index parity
(`i & 1 == 0`), the class by matching `round_to(duration, ROUND_TO)`
against `SHORT_DURATION` and `LONG_BIT_DURATION`, keeping the original
duration in the `Unusual` case. -/
def classify_slot (i d : Nat) : TimeSlot :=
  { duration :=
      if round_to d ROUND_TO = SHORT_DURATION then DurationClass.Short
      else if round_to d ROUND_TO = LONG_BIT_DURATION then DurationClass.Long
      else DurationClass.Unusual d
    component :=
      if i &&& 1 = 0 then SignalComponent.Pulse else SignalComponent.Pause }

/-- `stream_to_signals`, with the enumeration index made explicit. -/
def stream_to_signals_from (i : Nat) : List Nat → List TimeSlot
  | [] => []
  | d :: rest => classify_slot i d :: stream_to_signals_from (i + 1) rest

/-- `stream_to_signals` from `parsing.rs`. -/
def stream_to_signals (signal_timings : List Nat) : List TimeSlot :=
  stream_to_signals_from 0 signal_timings

/-- `ir_dump_start` from `parsing.rs`: a short pulse followed by a
"super-long" pause (`x / SHORT_DURATION > 26`). -/
def ir_dump_start : List TimeSlot → Option (List TimeSlot)
  | ⟨DurationClass.Short, SignalComponent.Pulse⟩ ::
      ⟨DurationClass.Unusual x, SignalComponent.Pause⟩ :: rest =>
    if x / SHORT_DURATION > 26 then some rest else none
  | _ => none

/-- `packet_bit` from `parsing.rs`: a short pulse then a short pause is the
bit `0`; a short pulse then a long pause is the bit `1`. -/
def packet_bit : List TimeSlot → Option (Bool × List TimeSlot)
  | ⟨DurationClass.Short, SignalComponent.Pulse⟩ ::
      ⟨DurationClass.Short, SignalComponent.Pause⟩ :: rest => some (false, rest)
  | ⟨DurationClass.Short, SignalComponent.Pulse⟩ ::
      ⟨DurationClass.Long, SignalComponent.Pause⟩ :: rest => some (true, rest)
  | _ => none

/-- `packet_start` from `parsing.rs`: an unusually long pulse
(`pulse / SHORT_DURATION ∈ [4, 7)`) followed by an unusually long pause
(`pause / SHORT_DURATION ∈ [15, 20)`). -/
def packet_start : List TimeSlot → Option (List TimeSlot)
  | ⟨DurationClass.Unusual pulse, SignalComponent.Pulse⟩ ::
      ⟨DurationClass.Unusual pause, SignalComponent.Pause⟩ :: rest =>
    if 4 ≤ pulse / SHORT_DURATION ∧ pulse / SHORT_DURATION < 7 ∧
        15 ≤ pause / SHORT_DURATION ∧ pause / SHORT_DURATION < 20 then
      some rest
    else none
  | _ => none

/-- `packet_end` from `parsing.rs`: either a single short pulse at the very
end of the stream, or a short pulse and an unusual pause with
`pause / SHORT_DURATION ∈ [4, 7)`. -/
def packet_end : List TimeSlot → Option (List TimeSlot)
  | [⟨DurationClass.Short, SignalComponent.Pulse⟩] => some []
  | ⟨DurationClass.Short, SignalComponent.Pulse⟩ ::
      ⟨DurationClass.Unusual pause, SignalComponent.Pause⟩ :: rest =>
    if 4 ≤ pause / SHORT_DURATION ∧ pause / SHORT_DURATION < 7 then some rest
    else none
  | _ => none

/-- The `many1(packet_bit)` loop of `single_packet`, with fuel: repeatedly
apply `packet_bit` until it fails, returning the bits in reception order
and the remaining slots.  Fuel `s.length` is always sufficient since each
iteration consumes two slots. -/
def packet_bits_fuel : Nat → List TimeSlot → List Bool × List TimeSlot
  | 0, s => ([], s)
  | f + 1, s =>
    match packet_bit s with
    | none => ([], s)
    | some (b, rest) =>
      (b :: (packet_bits_fuel f rest).1, (packet_bits_fuel f rest).2)

/-- The bits collected by `many1(packet_bit)` (empty when the first
`packet_bit` fails, which is exactly when `many1` fails). -/
def packet_bits (s : List TimeSlot) : List Bool × List TimeSlot :=
  packet_bits_fuel s.length s

/-- `single_packet` from `parsing.rs`: `packet_start`, then
`many1(packet_bit)`, then `packet_end`; the collected bits are pushed in
reverse order into the packet, so the stored data is the reverse of the
reception order. -/
def single_packet (s : List TimeSlot) : Option (Packet × List TimeSlot) :=
  match packet_start s with
  | none => none
  | some s1 =>
    if (packet_bits s1).1 = [] then none
    else
      match packet_end (packet_bits s1).2 with
      | none => none
      | some s3 => some (⟨(packet_bits s1).1.reverse⟩, s3)

/-- The `many1(single_packet)` loop of `ir_dump_to_packets`, with fuel:
repeatedly apply `single_packet` until it fails.  Fuel `s.length` is always
sufficient since each iteration consumes at least five slots. -/
def packets_loop : Nat → List TimeSlot → List Packet × List TimeSlot
  | 0, s => ([], s)
  | f + 1, s =>
    match single_packet s with
    | none => ([], s)
    | some (p, rest) =>
      (p :: (packets_loop f rest).1, (packets_loop f rest).2)

/-- `ir_dump_to_packets` from `parsing.rs`: `ir_dump_start`, then
`all_consuming(many1(single_packet))` — at least one packet, and the whole
slot stream must be consumed. -/
def ir_dump_to_packets (stream : List TimeSlot) : Option (List Packet) :=
  match ir_dump_start stream with
  | none => none
  | some s1 =>
    match single_packet s1 with
    | none => none
    | some (p, rest) =>
      if (packets_loop rest.length rest).2 = [] then
        some (p :: (packets_loop rest.length rest).1)
      else none

/-- `stream_to_packets` from `parsing.rs`: classify the raw durations, then
decode them; a nom error becomes `none`. -/
def stream_to_packets (signal_timings : List Nat) : Option (List Packet) :=
  ir_dump_to_packets (stream_to_signals signal_timings)

/-- Result of a nom parser over text, embedded over `List Char`:
`ok value rest` for success, `fail` for a nom error, and `crash` for a Rust
panic (reachable only through the `version` field's `.unwrap()`). -/
inductive PRes (α : Type) where
  | ok : α → List Char → PRes α
  | fail : PRes α
  | crash : PRes α
  deriving DecidableEq, Repr

/-- Sequencing of embedded nom parsers (the `?` operator of `dump.rs`):
`fail` and `crash` propagate. -/
def PRes.bind {α β : Type} : PRes α → (α → List Char → PRes β) → PRes β
  | .ok a rest, f => f a rest
  | .fail, _ => .fail
  | .crash, _ => .crash

/-- `SignalType` from `signal.rs` (only `Raw` exists today). -/
inductive SignalType where
  | Raw : SignalType
  deriving DecidableEq, Repr

/-- `RawSignal` from `raw.rs`.  The `duty_cycle: f32` field is embedded by
the lexical token recognized by nom's float parser (the token determines
the `f32` value; the float conversion itself carries no logic relevant to
the claims). -/
structure RawSignal where
  name : List Char
  type : SignalType
  frequency : Nat
  duty_cycle : List Char
  data : List Nat
  deriving DecidableEq, Repr

/-- `DumpFile` from `dump.rs`. -/
structure DumpFile where
  version : Nat
  signals : List RawSignal
  deriving DecidableEq, Repr

/-- nom's `bytes::complete::tag`: match a literal prefix. -/
def tag (t s : List Char) : PRes Unit :=
  if t.isPrefixOf s then .ok () (s.drop t.length) else .fail

/-- nom's `character::complete::line_ending`: `"\n"` or `"\r\n"`. -/
def line_ending : List Char → PRes Unit
  | '\n' :: rest => .ok () rest
  | '\r' :: '\n' :: rest => .ok () rest
  | _ => .fail

/-- nom's `character::complete::not_line_ending`: the (possibly empty)
run of characters before the first `'\r'` or `'\n'`; a `'\r'` not followed
by `'\n'` is an error. -/
def not_line_ending (s : List Char) : PRes (List Char) :=
  match s.dropWhile (fun c => ¬ (c = '\r' ∨ c = '\n')) with
  | [] => .ok (s.takeWhile (fun c => ¬ (c = '\r' ∨ c = '\n'))) []
  | c :: r =>
    if c = '\r' then
      if r.head? = some '\n' then
        .ok (s.takeWhile (fun c => ¬ (c = '\r' ∨ c = '\n'))) (c :: r)
      else .fail
    else .ok (s.takeWhile (fun c => ¬ (c = '\r' ∨ c = '\n'))) (c :: r)

/-- nom's `character::complete::digit1`: one or more decimal digits. -/
def digit1 (s : List Char) : PRes (List Char) :=
  if s.takeWhile Char.isDigit = [] then .fail
  else .ok (s.takeWhile Char.isDigit) (s.dropWhile Char.isDigit)

/-- The numeric value of a decimal digit string. -/
def digitsToNat (ds : List Char) : Nat :=
  ds.foldl (fun acc c => acc * 10 + (c.toNat - 48)) 0

/-- `parse_u32_str` from `dump.rs`: `map_res(digit1, parse::<u32>)`;
a digit run whose value does not fit in `u32` is a parse error. -/
def parse_u32_str (s : List Char) : PRes Nat :=
  (digit1 s).bind fun ds rest =>
    if digitsToNat ds < U32 then .ok (digitsToNat ds) rest else .fail

/-- `version` from `dump.rs`: `tag("Version: ")`, then `digit1`, then
`.parse().unwrap()` — on a digit run that overflows `u32` the `unwrap`
panics, which is `crash` here. -/
def version (s : List Char) : PRes Nat :=
  (tag ("Version: ".toList) s).bind fun _ s1 =>
  (digit1 s1).bind fun ds rest =>
    if digitsToNat ds < U32 then .ok (digitsToNat ds) rest else .crash

/-- `name` from `dump.rs`. -/
def name (s : List Char) : PRes (List Char) :=
  (tag ("name: ".toList) s).bind fun _ s1 =>
  not_line_ending s1

/-- `frequency` from `dump.rs`. -/
def frequency (s : List Char) : PRes Nat :=
  (tag ("frequency: ".toList) s).bind fun _ s1 =>
  parse_u32_str s1

/-- The mantissa part of nom's `recognize_float`: either one-or-more digits
optionally followed by `'.'` and zero-or-more digits, or `'.'` followed by
one-or-more digits. -/
def float_mantissa (s : List Char) : PRes (List Char) :=
  if s.takeWhile Char.isDigit = [] then
    if s.head? = some '.' then
      if s.tail.takeWhile Char.isDigit = [] then .fail
      else .ok ('.' :: s.tail.takeWhile Char.isDigit) (s.tail.dropWhile Char.isDigit)
    else .fail
  else
    if (s.dropWhile Char.isDigit).head? = some '.' then
      .ok (s.takeWhile Char.isDigit ++
          '.' :: (s.dropWhile Char.isDigit).tail.takeWhile Char.isDigit)
        ((s.dropWhile Char.isDigit).tail.dropWhile Char.isDigit)
    else .ok (s.takeWhile Char.isDigit) (s.dropWhile Char.isDigit)

/-- The optional exponent part of nom's `recognize_float`: `e`/`E`, an
optional sign, then one-or-more digits (required once the `e` is seen). -/
def float_exponent (s : List Char) : PRes (List Char) :=
  if s.head? = some 'e' ∨ s.head? = some 'E' then
    if s.tail.head? = some '+' ∨ s.tail.head? = some '-' then
      if s.tail.tail.takeWhile Char.isDigit = [] then .fail
      else
        .ok (s.take 2 ++ s.tail.tail.takeWhile Char.isDigit)
          (s.tail.tail.dropWhile Char.isDigit)
    else
      if s.tail.takeWhile Char.isDigit = [] then .fail
      else .ok (s.take 1 ++ s.tail.takeWhile Char.isDigit) (s.tail.dropWhile Char.isDigit)
  else .ok [] s

/-- nom's `number::complete::float`, embedded as the recognizer of the
decimal float token (`recognize_float`): an optional sign, a mantissa and
an optional exponent.  The recognized token is returned; the `f32` value
it denotes is outside the scope of the claims. -/
def float (s : List Char) : PRes (List Char) :=
  if s.head? = some '+' ∨ s.head? = some '-' then
    (float_mantissa s.tail).bind fun m s2 =>
    (float_exponent s2).bind fun e s3 =>
    .ok (s.take 1 ++ m ++ e) s3
  else
    (float_mantissa s).bind fun m s2 =>
    (float_exponent s2).bind fun e s3 =>
    .ok (m ++ e) s3

/-- `duty_cycle` from `dump.rs` (the recognized float token). -/
def duty_cycle (s : List Char) : PRes (List Char) :=
  (tag ("duty_cycle: ".toList) s).bind fun _ s1 =>
  float s1

/-- The repetition inside `separated_list0(tag(" "), parse_u32_str)`:
greedily parse `" "` followed by a `u32`, stopping (without consuming the
separator) as soon as either fails.  Each iteration consumes at least two
characters, so fuel `s.length` is always sufficient. -/
def data_list_loop : Nat → List Char → List Nat × List Char
  | 0, s => ([], s)
  | f + 1, s =>
    match tag (" ".toList) s with
    | .ok _ s1 =>
      match parse_u32_str s1 with
      | .ok v s2 => (v :: (data_list_loop f s2).1, (data_list_loop f s2).2)
      | _ => ([], s)
    | _ => ([], s)

/-- nom's `separated_list0(tag(" "), parse_u32_str)`: zero or more `u32`s
separated by single spaces. -/
def separated_list0_u32 (s : List Char) : List Nat × List Char :=
  match parse_u32_str s with
  | .ok v s1 => (v :: (data_list_loop s1.length s1).1, (data_list_loop s1.length s1).2)
  | _ => ([], s)

/-- `data` from `dump.rs`. -/
def data (s : List Char) : PRes (List Nat) :=
  (tag ("data: ".toList) s).bind fun _ s1 =>
    .ok (separated_list0_u32 s1).1 (separated_list0_u32 s1).2

/-- `signal_type` from `dump.rs`: `tag("type: ")` then `tag("raw")`. -/
def signal_type (s : List Char) : PRes SignalType :=
  (tag ("type: ".toList) s).bind fun _ s1 =>
  (tag ("raw".toList) s1).bind fun _ s2 =>
  .ok SignalType.Raw s2

/-- `saved_signal` from `dump.rs`: one record of the dump grammar. -/
def saved_signal (s : List Char) : PRes RawSignal :=
  (tag ("#".toList) s).bind fun _ s =>
  (not_line_ending s).bind fun _ s =>
  (line_ending s).bind fun _ s =>
  (name s).bind fun nm s =>
  (line_ending s).bind fun _ s =>
  (signal_type s).bind fun ty s =>
  (line_ending s).bind fun _ s =>
  (frequency s).bind fun fr s =>
  (line_ending s).bind fun _ s =>
  (duty_cycle s).bind fun dc s =>
  (line_ending s).bind fun _ s =>
  (data s).bind fun dt s =>
  (line_ending s).bind fun _ s =>
  .ok ⟨nm, ty, fr, dc, dt⟩ s

/-- The `many0(saved_signal)` loop of `dump_file`, with fuel: parse records
until `saved_signal` fails; a `crash` inside a record propagates.  Each
record consumes at least one character, so fuel `s.length` is always
sufficient. -/
def signals_loop : Nat → List Char → PRes (List RawSignal)
  | 0, s => .ok [] s
  | f + 1, s =>
    match saved_signal s with
    | .ok sig rest =>
      match signals_loop f rest with
      | .ok sigs r2 => .ok (sig :: sigs) r2
      | x => x
    | .fail => .ok [] s
    | .crash => .crash

/-- `dump_file` from `dump.rs`: the header literal, a version line, then
`all_consuming(many0(saved_signal))` — the records must consume the whole
remaining input. -/
def dump_file (s : List Char) : PRes DumpFile :=
  (tag ("Filetype: IR signals file".toList) s).bind fun _ s =>
  (line_ending s).bind fun _ s =>
  (version s).bind fun v s =>
  (line_ending s).bind fun _ s =>
  match signals_loop s.length s with
  | .ok sigs rest => if rest = [] then .ok ⟨v, sigs⟩ rest else .fail
  | .fail => .fail
  | .crash => .crash

/-- `DumpFile::try_from` from `dump.rs`: run `dump_file` and keep only the
parsed value (`finish().map(|(_, dump)| dump)`). -/
def dump_file_try_from (s : List Char) : PRes DumpFile :=
  match dump_file s with
  | .ok d _ => .ok d []
  | x => x

/-- The CRLF expansion of a text: every `'\n'` becomes `"\r\n"`. -/
def expandLF : List Char → List Char
  | [] => []
  | c :: r => if c = '\n' then '\r' :: '\n' :: expandLF r else c :: expandLF r

theorem stream_to_signals_from_length (k : Nat) (t : List Nat) :
    (stream_to_signals_from k t).length = t.length := by
  induction t generalizing k with
  | nil => rfl
  | cons d rest ih => simp [stream_to_signals_from, ih]

theorem stream_to_signals_from_getElem (k : Nat) (t : List Nat) (i d : Nat)
    (h : t[i]? = some d) :
    (stream_to_signals_from k t)[i]? = some (classify_slot (k + i) d) := by
  induction t generalizing k i with
  | nil => simp at h
  | cons a rest ih =>
    cases i with
    | zero =>
      simp only [List.getElem?_cons_zero, Option.some.injEq] at h
      subst h
      simp [stream_to_signals_from]
    | succ n =>
      simp only [List.getElem?_cons_succ] at h
      simp only [stream_to_signals_from, List.getElem?_cons_succ]
      rw [ih (k + 1) n h]
      congr 2
      omega

/-- C2 (code bug): the `Version` field's `digit1` accepts any digit run, but
the value goes through `.parse::<u32>().unwrap()`: a digit string that
overflows `u32` panics (`crash`) instead of returning a parse error, while
the `frequency` field (via `map_res`) correctly fails. -/
theorem version_overflow_crashes :
    version ("Version: 4294967296\n".toList) = PRes.crash ∧
    frequency ("frequency: 4294967296\n".toList) = PRes.fail ∧
    dump_file ("Filetype: IR signals file\nVersion: 4294967296\n".toList) = PRes.crash :=
  ⟨rfl, rfl, rfl⟩

/-- C3: decoding the raw duration sequence of end-to-end scenario B yields
exactly one packet with stored bits `[true, false]`. -/
theorem scenario_b_decodes :
    stream_to_packets [550, 17700, 2972, 8930, 550, 550, 550, 1650, 550] =
      some [⟨[true, false]⟩] := rfl

/-- C1 (counterexample): an odd-length raw duration sequence on which
`stream_to_packets` succeeds — the scenario-B sequence has length 9. -/
theorem odd_length_success_cex :
    [550, 17700, 2972, 8930, 550, 550, 550, 1650, 550].length % 2 = 1 ∧
    stream_to_packets [550, 17700, 2972, 8930, 550, 550, 550, 1650, 550] ≠ none :=
  ⟨rfl, by decide⟩

/-- C4 (counterexample): at `x = 4294967295`, `r = 550` the `u32` addition
`x + r/2` wraps, the result is `0`, and the distance to `x` exceeds `r/2`. -/
theorem round_to_overflow_cex :
    round_to 4294967295 550 = 0 ∧
    ¬ (2 * (4294967295 - round_to 4294967295 550) ≤ 550) := by decide

/-- C4 (amended): when the `u32` addition `x + r/2` does not overflow and
`r > 0`, `round_to x r` is a multiple of `r`, lies within `r/2` of `x`
(stated as `2·|round_to x r − x| ≤ r`), and an exact tie rounds up to the
next multiple; the concrete examples of the claim hold as well. -/
theorem round_to_law (x r : Nat) (hr : 0 < r) (hov : x + r / 2 < U32) :
    r ∣ round_to x r ∧
    2 * (if round_to x r ≤ x then x - round_to x r else round_to x r - x) ≤ r ∧
    (2 * (x % r) = r → round_to x r = (x / r + 1) * r) ∧
    round_to 0 550 = 0 ∧ round_to 549 550 = 550 ∧ round_to 551 550 = 550 ∧
    round_to 120 50 = 100 ∧ round_to 125 50 = 150 ∧ round_to 2972 550 = 2750 := by
  have hmod : (x + r / 2) % U32 = x + r / 2 := Nat.mod_eq_of_lt hov
  have hrt : round_to x r = (x + r / 2) / r * r := by rw [round_to, hmod]
  refine ⟨?_, ?_, ?_, by decide, by decide, by decide, by decide, by decide, by decide⟩
  · exact hrt ▸ Dvd.intro_left _ rfl
  · have hd : (x + r / 2) / r * r + (x + r / 2) % r = x + r / 2 :=
      Nat.div_add_mod' (x + r / 2) r
    have hm : (x + r / 2) % r < r := Nat.mod_lt _ hr
    rw [hrt]
    generalize (x + r / 2) / r = q at hd ⊢
    generalize hA : q * r = A at hd ⊢
    generalize (x + r / 2) % r = m at hd hm
    split <;> omega
  · intro htie
    have hxr : x / r * r + x % r = x := Nat.div_add_mod' x r
    have e1 : x + r / 2 = (x / r + 1) * r := by
      have h3 : (x / r + 1) * r = x / r * r + r := by ring
      rw [h3]
      generalize x / r * r = B at hxr ⊢
      have hm : x % r < r := Nat.mod_lt _ hr
      generalize x % r = m at hxr htie hm
      omega
    rw [hrt, e1, Nat.mul_div_cancel _ hr]

/-- C4 witness: the amended law applied at `x = 125`, `r = 50`. -/
theorem round_to_law_witness :
    50 ∣ round_to 125 50 ∧
    2 * (if round_to 125 50 ≤ 125 then 125 - round_to 125 50 else round_to 125 50 - 125) ≤ 50 ∧
    (2 * (125 % 50) = 50 → round_to 125 50 = (125 / 50 + 1) * 50) ∧
    round_to 0 550 = 0 ∧ round_to 549 550 = 550 ∧ round_to 551 550 = 550 ∧
    round_to 120 50 = 100 ∧ round_to 125 50 = 150 ∧ round_to 2972 550 = 2750 :=
  round_to_law 125 50 (by decide) (by decide)

/-- C5: the classifier returns one slot per duration; slot `i` is a pulse
exactly when `i` is even, and its class is `Short` when the duration rounds
to 550, `Long` when it rounds to 1650, and otherwise `Unusual` carrying the
original unrounded duration. -/
theorem stream_to_signals_spec (timings : List Nat) :
    (stream_to_signals timings).length = timings.length ∧
    ∀ i d, timings[i]? = some d →
      (stream_to_signals timings)[i]? = some
        ({ duration :=
             if round_to d 550 = 550 then DurationClass.Short
             else if round_to d 550 = 1650 then DurationClass.Long
             else DurationClass.Unusual d
           component :=
             if i % 2 = 0 then SignalComponent.Pulse else SignalComponent.Pause } :
          TimeSlot) := by
  refine ⟨stream_to_signals_from_length 0 timings, ?_⟩
  intro i d h
  rw [stream_to_signals, stream_to_signals_from_getElem 0 timings i d h]
  have h1 : (0 + i) &&& 1 = i % 2 := by rw [Nat.zero_add, Nat.and_one_is_mod]
  simp only [classify_slot, ROUND_TO, SHORT_DURATION, LONG_BIT_DURATION, h1]

theorem getLast?_of_suffix {α : Type} {l s : List α} (h : l.IsSuffix s) (hne : l ≠ []) :
    s.getLast? = l.getLast? := by
  obtain ⟨w, rfl⟩ := h
  exact List.getLast?_append_of_ne_nil w hne

theorem ir_dump_start_consumes {s r : List TimeSlot} (h : ir_dump_start s = some r) :
    s.length = r.length + 2 ∧ r.IsSuffix s := by
  unfold ir_dump_start at h
  split at h
  · split at h
    · cases h; exact ⟨by simp, ⟨[_, _], rfl⟩⟩
    · cases h
  · cases h

theorem packet_bit_consumes {s : List TimeSlot} {b : Bool} {r : List TimeSlot}
    (h : packet_bit s = some (b, r)) :
    s.length = r.length + 2 ∧ r.IsSuffix s := by
  unfold packet_bit at h
  split at h
  · cases h; exact ⟨by simp, ⟨[_, _], rfl⟩⟩
  · cases h; exact ⟨by simp, ⟨[_, _], rfl⟩⟩
  · cases h

theorem packet_start_consumes {s r : List TimeSlot} (h : packet_start s = some r) :
    s.length = r.length + 2 ∧ r.IsSuffix s := by
  unfold packet_start at h
  split at h
  · split at h
    · cases h; exact ⟨by simp, ⟨[_, _], rfl⟩⟩
    · cases h
  · cases h

theorem packet_end_consumes {s r : List TimeSlot} (h : packet_end s = some r) :
    (s.length = r.length + 2 ∧ r.IsSuffix s) ∨
      (s = [⟨DurationClass.Short, SignalComponent.Pulse⟩] ∧ r = []) := by
  unfold packet_end at h
  split at h
  · cases h; right; exact ⟨rfl, rfl⟩
  · split at h
    · cases h; left; exact ⟨by simp, ⟨[_, _], rfl⟩⟩
    · cases h
  · cases h

theorem packet_bits_fuel_consumes (f : Nat) (s : List TimeSlot) :
    s.length = (packet_bits_fuel f s).2.length + 2 * (packet_bits_fuel f s).1.length ∧
    (packet_bits_fuel f s).2.IsSuffix s := by
  induction f generalizing s with
  | zero => exact ⟨by simp [packet_bits_fuel], List.suffix_refl s⟩
  | succ f ih =>
    cases hb : packet_bit s with
    | none => simp [packet_bits_fuel, hb, List.suffix_refl]
    | some br =>
      obtain ⟨b, rest⟩ := br
      obtain ⟨hlen, hsuf⟩ := packet_bit_consumes hb
      obtain ⟨ihlen, ihsuf⟩ := ih rest
      refine ⟨?_, ?_⟩
      · simp only [packet_bits_fuel, hb, List.length_cons]
        omega
      · simp only [packet_bits_fuel, hb]
        exact ihsuf.trans hsuf

theorem packet_bits_consumes (s : List TimeSlot) :
    s.length = (packet_bits s).2.length + 2 * (packet_bits s).1.length ∧
    (packet_bits s).2.IsSuffix s :=
  packet_bits_fuel_consumes s.length s

theorem single_packet_consumes {s : List TimeSlot} {p : Packet} {r : List TimeSlot}
    (h : single_packet s = some (p, r)) :
    r.length < s.length ∧
      ((s.length % 2 = r.length % 2 ∧ r.IsSuffix s) ∨
        (r = [] ∧ s.length % 2 = 1 ∧
          s.getLast? = some ⟨DurationClass.Short, SignalComponent.Pulse⟩)) := by
  unfold single_packet at h
  split at h
  · cases h
  next s1 hstart =>
    obtain ⟨hstl, hstsuf⟩ := packet_start_consumes hstart
    split at h
    · cases h
    next hbits =>
      split at h
      · cases h
      next s3 hend =>
        cases h
        obtain ⟨hbl, hbsuf⟩ := packet_bits_consumes s1
        rcases packet_end_consumes hend with ⟨hel, hesuf⟩ | ⟨he1, he2⟩
        · refine ⟨by omega, Or.inl ⟨by omega, (hesuf.trans hbsuf).trans hstsuf⟩⟩
        · subst he2
          refine ⟨?_, Or.inr ⟨rfl, ?_, ?_⟩⟩
          · rw [he1] at hbl; simp at hbl; simp only [List.length_nil]; omega
          · rw [he1] at hbl; simp at hbl; omega
          · have hsp : (packet_bits s1).2.IsSuffix s := hbsuf.trans hstsuf
            rw [he1] at hsp
            rw [getLast?_of_suffix hsp (by simp)]
            rfl

theorem packets_loop_invariant (f : Nat) (s : List TimeSlot) :
    ((packets_loop f s).2.length % 2 = s.length % 2 ∧ (packets_loop f s).2.IsSuffix s) ∨
      ((packets_loop f s).2 = [] ∧ s.length % 2 = 1 ∧
        s.getLast? = some ⟨DurationClass.Short, SignalComponent.Pulse⟩) := by
  induction f generalizing s with
  | zero => exact Or.inl ⟨rfl, List.suffix_refl s⟩
  | succ f ih =>
    cases hsp : single_packet s with
    | none =>
      simp only [packets_loop, hsp]
      exact Or.inl ⟨by simp, List.suffix_refl s⟩
    | some pr =>
      obtain ⟨p, rest⟩ := pr
      obtain ⟨hlt, hinv⟩ := single_packet_consumes hsp
      simp only [packets_loop, hsp]
      rcases hinv with ⟨hpar, hsuf⟩ | ⟨hrnil, hodd, hlast⟩
      · rcases ih rest with ⟨ihpar, ihsuf⟩ | ⟨ihnil, ihodd, ihlast⟩
        · exact Or.inl ⟨by omega, ihsuf.trans hsuf⟩
        · have hrne : rest ≠ [] := by
            intro hh
            rw [hh] at ihodd
            simp at ihodd
          refine Or.inr ⟨ihnil, by omega, ?_⟩
          rw [getLast?_of_suffix hsuf hrne]
          exact ihlast
      · subst hrnil
        rcases ih [] with ⟨ihpar, ihsuf⟩ | ⟨ihnil, ihodd, ihlast⟩
        · exact Or.inr ⟨List.suffix_nil.mp ihsuf, hodd, hlast⟩
        · exact Or.inr ⟨ihnil, hodd, hlast⟩

theorem stream_to_packets_odd_last (t : List Nat) (ps : List Packet)
    (hok : stream_to_packets t = some ps) (hodd : t.length % 2 = 1) :
    (stream_to_signals t).getLast? =
      some ⟨DurationClass.Short, SignalComponent.Pulse⟩ := by
  have hlen : (stream_to_signals t).length = t.length :=
    stream_to_signals_from_length 0 t
  unfold stream_to_packets ir_dump_to_packets at hok
  split at hok
  · cases hok
  next s1 hds =>
    obtain ⟨hdl, hdsuf⟩ := ir_dump_start_consumes hds
    split at hok
    · cases hok
    next p0 rest hsp =>
      obtain ⟨hslt, hsinv⟩ := single_packet_consumes hsp
      split at hok
      next hnil =>
        rcases packets_loop_invariant rest.length rest with ⟨lpar, _⟩ | ⟨_, lodd, llast⟩
        · rw [hnil] at lpar
          simp only [List.length_nil] at lpar
          rcases hsinv with ⟨spar, ssuf⟩ | ⟨srnil, sodd, slast⟩
          · omega
          · have hs1ne : s1 ≠ [] := by
              intro hh
              rw [hh] at sodd
              simp at sodd
            rw [getLast?_of_suffix hdsuf hs1ne]
            exact slast
        · rcases hsinv with ⟨spar, ssuf⟩ | ⟨srnil, sodd, slast⟩
          · have hrne : rest ≠ [] := by
              intro hh
              rw [hh] at lodd
              simp at lodd
            have hs1ne : s1 ≠ [] := by
              intro hh
              rw [hh] at ssuf
              have := List.suffix_nil.mp ssuf
              rw [this] at hrne
              exact hrne rfl
            rw [getLast?_of_suffix hdsuf hs1ne, getLast?_of_suffix ssuf hrne]
            exact llast
          · rw [srnil] at lodd
            simp at lodd
      · cases hok

theorem stream_to_signals_from_getLast (k : Nat) (t : List Nat) (d : Nat)
    (h : t.getLast? = some d) :
    (stream_to_signals_from k t).getLast? =
      some (classify_slot (k + (t.length - 1)) d) := by
  induction t generalizing k with
  | nil => simp at h
  | cons a rest ih =>
    cases rest with
    | nil =>
      simp only [List.getLast?_singleton, Option.some.injEq] at h
      subst h
      simp [stream_to_signals_from]
    | cons b r2 =>
      rw [List.getLast?_cons_cons] at h
      have hih := ih (k + 1) h
      rw [show stream_to_signals_from k (a :: b :: r2) =
            classify_slot k a :: stream_to_signals_from (k + 1) (b :: r2) from rfl]
      have hne : stream_to_signals_from (k + 1) (b :: r2) =
          classify_slot (k + 1) b :: stream_to_signals_from (k + 2) r2 := rfl
      rw [hne, List.getLast?_cons_cons, ← hne, hih]
      congr 2
      simp only [List.length_cons]
      omega

/-- C1 (amended): odd length alone does not make `stream_to_packets` fail
(scenario B is an odd-length success); what the end-of-stream rule forces
is that a successful decode of an odd-length sequence ends in a lone short
pulse, so every odd-length sequence whose final duration does not round to
550 fails. -/
theorem odd_length_needs_short_final (t : List Nat) (d : Nat)
    (hodd : t.length % 2 = 1) (hlast : t.getLast? = some d)
    (hshort : round_to d 550 ≠ 550) :
    stream_to_packets t = none := by
  cases hok : stream_to_packets t with
  | none => rfl
  | some ps =>
    exfalso
    have hl := stream_to_packets_odd_last t ps hok hodd
    have hg := stream_to_signals_from_getLast 0 t d hlast
    rw [stream_to_signals, hg] at hl
    injection hl with hl
    have hdur := congrArg TimeSlot.duration hl
    simp only [classify_slot] at hdur
    split at hdur
    next hc => exact hshort (by simpa [ROUND_TO, SHORT_DURATION] using hc)
    next hc =>
      split at hdur
      · cases hdur
      · cases hdur

/-- C1 witness: the amended statement applied at the odd-length sequence
`[42]`, whose final duration rounds to 0, not 550. -/
theorem odd_length_needs_short_final_witness : stream_to_packets [42] = none :=
  odd_length_needs_short_final [42] 42 rfl rfl (by decide)

/-- C8: every rule of the packet grammar consumes at least one slot on
success, so decoding is bounded by the length of the slot sequence, and
`stream_to_packets` always returns either packets or an error. -/
theorem grammar_rules_consume :
    (∀ s r, ir_dump_start s = some r → r.length < s.length) ∧
    (∀ s r, packet_start s = some r → r.length < s.length) ∧
    (∀ s b r, packet_bit s = some (b, r) → r.length < s.length) ∧
    (∀ s r, packet_end s = some r → r.length < s.length) ∧
    (∀ s p r, single_packet s = some (p, r) → r.length < s.length) ∧
    (∀ t, stream_to_packets t = none ∨ ∃ ps, stream_to_packets t = some ps) := by
  refine ⟨?_, ?_, ?_, ?_, ?_, ?_⟩
  · intro s r h
    obtain ⟨hl, -⟩ := ir_dump_start_consumes h
    omega
  · intro s r h
    obtain ⟨hl, -⟩ := packet_start_consumes h
    omega
  · intro s b r h
    obtain ⟨hl, -⟩ := packet_bit_consumes h
    omega
  · intro s r h
    rcases packet_end_consumes h with ⟨hl, -⟩ | ⟨h1, h2⟩
    · omega
    · subst h1; subst h2; simp
  · intro s p r h
    exact (single_packet_consumes h).1
  · intro t
    cases hp : stream_to_packets t with
    | none => exact Or.inl rfl
    | some ps => exact Or.inr ⟨ps, rfl⟩

/-- C8 witness: `packet_bit` consumes two slots on the concrete bit-0
pair. -/
theorem grammar_rules_consume_witness :
    ([] : List TimeSlot).length <
      [(⟨DurationClass.Short, SignalComponent.Pulse⟩ : TimeSlot),
        ⟨DurationClass.Short, SignalComponent.Pause⟩].length :=
  grammar_rules_consume.2.2.1
    [⟨DurationClass.Short, SignalComponent.Pulse⟩,
      ⟨DurationClass.Short, SignalComponent.Pause⟩] false [] rfl

theorem single_packet_data_ne_nil {s : List TimeSlot} {p : Packet}
    {r : List TimeSlot} (h : single_packet s = some (p, r)) : p.data ≠ [] := by
  unfold single_packet at h
  split at h
  · cases h
  next s1 hstart =>
    split at h
    · cases h
    next hbits =>
      split at h
      · cases h
      next s3 hend =>
        cases h
        simpa using hbits

theorem packets_loop_data_ne_nil (f : Nat) (s : List TimeSlot) :
    ∀ p ∈ (packets_loop f s).1, p.data ≠ [] := by
  induction f generalizing s with
  | zero =>
    intro p hp
    simp [packets_loop] at hp
  | succ f ih =>
    intro p hp
    cases hsp : single_packet s with
    | none =>
      simp only [packets_loop, hsp] at hp
      simp at hp
    | some pr =>
      obtain ⟨q, rest⟩ := pr
      simp only [packets_loop, hsp] at hp
      rcases List.mem_cons.mp hp with rfl | hmem
      · exact single_packet_data_ne_nil hsp
      · exact ih rest p hmem

/-- C9: on every input where the Packet Decoder succeeds, every returned
packet has a non-empty bit sequence. -/
theorem packets_nonempty (t : List Nat) (ps : List Packet)
    (hok : stream_to_packets t = some ps) : ∀ p ∈ ps, p.data ≠ [] := by
  unfold stream_to_packets ir_dump_to_packets at hok
  split at hok
  · cases hok
  next s1 hds =>
    split at hok
    · cases hok
    next p0 rest hsp =>
      split at hok
      next hnil =>
        cases hok
        intro p hp
        rcases List.mem_cons.mp hp with rfl | hmem
        · exact single_packet_data_ne_nil hsp
        · exact packets_loop_data_ne_nil _ _ p hmem
      · cases hok

/-- C9 witness: the scenario-B decode's packets all carry at least one
bit. -/
theorem packets_nonempty_witness :
    ({ data := [true, false] } : Packet).data ≠ [] :=
  packets_nonempty [550, 17700, 2972, 8930, 550, 550, 550, 1650, 550]
    [{ data := [true, false] }] rfl { data := [true, false] }
    (List.mem_singleton_self _)

theorem packets_loop_mem_single (f : Nat) (s : List TimeSlot) :
    ∀ p ∈ (packets_loop f s).1, ∃ s2 r2, single_packet s2 = some (p, r2) := by
  induction f generalizing s with
  | zero =>
    intro p hp
    simp [packets_loop] at hp
  | succ f ih =>
    intro p hp
    cases hsp : single_packet s with
    | none =>
      simp only [packets_loop, hsp] at hp
      simp at hp
    | some pr =>
      obtain ⟨q, rest⟩ := pr
      simp only [packets_loop, hsp] at hp
      rcases List.mem_cons.mp hp with rfl | hmem
      · exact ⟨s, rest, hsp⟩
      · exact ih rest p hmem

/-- C6: the bits of a packet are collected in reception order `R` by the
bit run after the packet-start marker, and the stored packet data is
exactly `reverse R` — `data[i] = R[n-1-i]`; moreover every packet of a
successful decode is produced by `single_packet`. -/
theorem stored_bits_reverse_reception :
    (∀ s s1 p r, packet_start s = some s1 → single_packet s = some (p, r) →
      p.data = (packet_bits s1).1.reverse ∧
      p.data.length = (packet_bits s1).1.length ∧
      ∀ i (h1 : i < p.data.length)
          (h2 : (packet_bits s1).1.length - 1 - i < (packet_bits s1).1.length),
        p.data.get ⟨i, h1⟩ =
          (packet_bits s1).1.get ⟨(packet_bits s1).1.length - 1 - i, h2⟩) ∧
    (∀ t ps, stream_to_packets t = some ps →
      ∀ p ∈ ps, ∃ s r, single_packet s = some (p, r)) := by
  constructor
  · intro s s1 p r hstart h
    unfold single_packet at h
    split at h
    · cases h
    next s1b hstart2 =>
      rw [hstart] at hstart2
      injection hstart2 with he
      subst he
      split at h
      · cases h
      next hbits =>
        split at h
        · cases h
        next s3 hend =>
          cases h
          refine ⟨rfl, by simp, ?_⟩
          intro i h1 h2
          exact List.get_reverse' (packet_bits s1).1 ⟨i, h1⟩ h2
  · intro t ps hok
    unfold stream_to_packets ir_dump_to_packets at hok
    split at hok
    · cases hok
    next s1 hds =>
      split at hok
      · cases hok
      next p0 rest hsp =>
        split at hok
        next hnil =>
          cases hok
          intro p hp
          rcases List.mem_cons.mp hp with rfl | hmem
          · exact ⟨s1, rest, hsp⟩
          · exact packets_loop_mem_single _ _ p hmem
        · cases hok

/-- C6 witness: the bit-reversal fact applied to the concrete packet slots
of scenario B (bits received `0, 1`, stored `[true, false]`). -/
theorem stored_bits_reverse_reception_witness :
    ({ data := [true, false] } : Packet).data =
      (packet_bits
        [(⟨DurationClass.Short, SignalComponent.Pulse⟩ : TimeSlot),
          ⟨DurationClass.Short, SignalComponent.Pause⟩,
          ⟨DurationClass.Short, SignalComponent.Pulse⟩,
          ⟨DurationClass.Long, SignalComponent.Pause⟩,
          ⟨DurationClass.Short, SignalComponent.Pulse⟩]).1.reverse :=
  (stored_bits_reverse_reception.1
    [⟨DurationClass.Unusual 2972, SignalComponent.Pulse⟩,
      ⟨DurationClass.Unusual 8930, SignalComponent.Pause⟩,
      ⟨DurationClass.Short, SignalComponent.Pulse⟩,
      ⟨DurationClass.Short, SignalComponent.Pause⟩,
      ⟨DurationClass.Short, SignalComponent.Pulse⟩,
      ⟨DurationClass.Long, SignalComponent.Pause⟩,
      ⟨DurationClass.Short, SignalComponent.Pulse⟩]
    [⟨DurationClass.Short, SignalComponent.Pulse⟩,
      ⟨DurationClass.Short, SignalComponent.Pause⟩,
      ⟨DurationClass.Short, SignalComponent.Pulse⟩,
      ⟨DurationClass.Long, SignalComponent.Pause⟩,
      ⟨DurationClass.Short, SignalComponent.Pulse⟩]
    ⟨[true, false]⟩ [] rfl rfl).1

/-- C5 witness: the classifier spec applied at index 1 of `[550, 17700]`. -/
theorem stream_to_signals_spec_witness :
    (stream_to_signals [550, 17700])[1]? = some
      ({ duration :=
           if round_to 17700 550 = 550 then DurationClass.Short
           else if round_to 17700 550 = 1650 then DurationClass.Long
           else DurationClass.Unusual 17700
         component :=
           if 1 % 2 = 0 then SignalComponent.Pulse else SignalComponent.Pause } :
        TimeSlot) :=
  (stream_to_signals_spec [550, 17700]).2 1 17700 rfl

theorem PRes.bind_eq_ok {α β : Type} {p : PRes α} {f : α → List Char → PRes β}
    {b : β} {rest : List Char} (h : p.bind f = .ok b rest) :
    ∃ a r1, p = .ok a r1 ∧ f a r1 = .ok b rest := by
  cases p with
  | ok a r1 => exact ⟨a, r1, rfl, h⟩
  | fail => cases h
  | crash => cases h

theorem expandLF_append (a b : List Char) :
    expandLF (a ++ b) = expandLF a ++ expandLF b := by
  induction a with
  | nil => rfl
  | cons c r ih =>
    simp only [List.cons_append, expandLF]
    split <;> simp [ih]

theorem expandLF_cons_lf (r : List Char) :
    expandLF ('\n' :: r) = '\r' :: '\n' :: expandLF r := rfl

theorem expandLF_cons_ne {c : Char} (hc : c ≠ '\n') (r : List Char) :
    expandLF (c :: r) = c :: expandLF r := by
  rw [expandLF, if_neg hc]

theorem expandLF_no_lf {a : List Char} (h : '\n' ∉ a) : expandLF a = a := by
  induction a with
  | nil => rfl
  | cons c r ih =>
    simp only [List.mem_cons, not_or] at h
    rw [expandLF_cons_ne (fun hh => h.1 hh.symm), ih h.2]

theorem expandLF_nil_iff {s : List Char} : expandLF s = [] ↔ s = [] := by
  cases s with
  | nil => simp [expandLF]
  | cons c r =>
    simp only [expandLF]
    constructor
    · intro h
      split at h <;> cases h
    · intro h
      cases h

theorem expandLF_length {s : List Char} : s.length ≤ (expandLF s).length := by
  induction s with
  | nil => simp [expandLF]
  | cons c r ih =>
    rw [expandLF]
    split
    · simp only [List.length_cons]
      omega
    · simp only [List.length_cons]
      omega

theorem takeWhile_expandLF {P : Char → Bool} (hn : P '\n' = false)
    (hr : P '\r' = false) (s : List Char) :
    (expandLF s).takeWhile P = s.takeWhile P ∧
    (expandLF s).dropWhile P = expandLF (s.dropWhile P) := by
  induction s with
  | nil => exact ⟨rfl, rfl⟩
  | cons c r ih =>
    by_cases hc : c = '\n'
    · subst hc
      rw [expandLF_cons_lf]
      constructor
      · simp [List.takeWhile_cons, hr, hn]
      · simp only [List.dropWhile_cons, hr, hn, Bool.false_eq_true, if_false]
        rw [expandLF_cons_lf]
    · rw [expandLF_cons_ne hc]
      cases hpc : P c
      · constructor
        · simp [List.takeWhile_cons, hpc]
        · simp only [List.dropWhile_cons, hpc, Bool.false_eq_true, if_false]
          rw [expandLF_cons_ne hc]
      · constructor
        · simp [List.takeWhile_cons, hpc, ih.1]
        · simp only [List.dropWhile_cons, hpc, if_true]
          exact ih.2

theorem dropWhile_head_false {P : Char → Bool} {s : List Char} {c : Char}
    {r : List Char} (h : s.dropWhile P = c :: r) : P c = false := by
  induction s with
  | nil => cases h
  | cons a l ih =>
    rw [List.dropWhile_cons] at h
    split at h
    · exact ih h
    next hp =>
      cases h
      cases hh : P c
      · rfl
      · exact absurd hh hp

theorem tag_eq_ok {t s : List Char} {v : Unit} {rest : List Char}
    (h : tag t s = .ok v rest) : s = t ++ rest := by
  unfold tag at h
  split at h
  next hp =>
    cases h
    obtain ⟨u, rfl⟩ := List.isPrefixOf_iff_prefix.mp hp
    rw [List.drop_left]
  next => cases h

theorem tag_append (t u : List Char) : tag t (t ++ u) = .ok () u := by
  unfold tag
  rw [if_pos (List.isPrefixOf_iff_prefix.mpr ⟨u, rfl⟩), List.drop_left]

theorem tag_sublist {t s : List Char} {v : Unit} {rest : List Char}
    (h : tag t s = .ok v rest) : List.Sublist rest s := by
  have := tag_eq_ok h
  subst this
  exact List.sublist_append_right t rest

theorem tag_expand {t s rest : List Char} (hn : '\n' ∉ t)
    (h : tag t s = .ok () rest) : tag t (expandLF s) = .ok () (expandLF rest) := by
  have hs := tag_eq_ok h
  subst hs
  rw [expandLF_append, expandLF_no_lf hn]
  exact tag_append t (expandLF rest)

theorem line_ending_eq_ok {s rest : List Char} (hr : '\r' ∉ s)
    (h : line_ending s = .ok () rest) : s = '\n' :: rest := by
  unfold line_ending at h
  split at h
  · cases h; rfl
  · simp at hr
  · cases h

theorem line_ending_sublist {s rest : List Char}
    (h : line_ending s = .ok () rest) : List.Sublist rest s := by
  unfold line_ending at h
  split at h
  · cases h
    exact List.sublist_cons_self _ _
  · cases h
    exact (List.sublist_cons_self _ _).trans (List.sublist_cons_self _ _)
  · cases h

theorem line_ending_expand {s rest : List Char} (hr : '\r' ∉ s)
    (h : line_ending s = .ok () rest) :
    line_ending (expandLF s) = .ok () (expandLF rest) := by
  rw [line_ending_eq_ok hr h, expandLF, if_pos rfl]
  rfl

theorem not_line_ending_eq_ok {s v rest : List Char}
    (h : not_line_ending s = .ok v rest) :
    v = s.takeWhile (fun c => ¬ (c = '\r' ∨ c = '\n')) ∧
    rest = s.dropWhile (fun c => ¬ (c = '\r' ∨ c = '\n')) := by
  unfold not_line_ending at h
  split at h
  next heq =>
    cases h
    exact ⟨rfl, heq.symm⟩
  next c r heq =>
    split at h
    · split at h
      · cases h
        exact ⟨rfl, heq.symm⟩
      · cases h
    · cases h
      exact ⟨rfl, heq.symm⟩

theorem not_line_ending_sublist {s v rest : List Char}
    (h : not_line_ending s = .ok v rest) : List.Sublist rest s := by
  obtain ⟨-, rfl⟩ := not_line_ending_eq_ok h
  exact List.dropWhile_sublist _

theorem not_line_ending_expand {s v rest : List Char} (hr : '\r' ∉ s)
    (h : not_line_ending s = .ok v rest) :
    not_line_ending (expandLF s) = .ok v (expandLF rest) := by
  obtain ⟨rfl, rfl⟩ := not_line_ending_eq_ok h
  obtain ⟨ht, hd⟩ :=
    takeWhile_expandLF (P := fun c => ¬ (c = '\r' ∨ c = '\n')) (by simp) (by simp) s
  unfold not_line_ending
  rw [ht, hd]
  cases hdw : s.dropWhile (fun c => ¬ (c = '\r' ∨ c = '\n')) with
  | nil => rfl
  | cons c r =>
    have hcf := dropWhile_head_false hdw
    have hcor : c = '\r' ∨ c = '\n' :=
      Decidable.of_not_not (decide_eq_false_iff_not.mp hcf)
    have hcs : c ∈ s := (List.dropWhile_sublist _).subset (hdw ▸ List.mem_cons_self c r)
    have hc : c = '\n' := by
      rcases hcor with h1 | h1
      · exact absurd (h1 ▸ hcs) hr
      · exact h1
    subst hc
    rw [expandLF_cons_lf]
    rfl

theorem digit1_eq_ok {s ds rest : List Char} (h : digit1 s = .ok ds rest) :
    ds = s.takeWhile Char.isDigit ∧ rest = s.dropWhile Char.isDigit ∧
    s.takeWhile Char.isDigit ≠ [] := by
  unfold digit1 at h
  split at h
  · cases h
  next hne =>
    cases h
    exact ⟨rfl, rfl, hne⟩

theorem digit1_sublist {s ds rest : List Char} (h : digit1 s = .ok ds rest) :
    List.Sublist rest s := by
  obtain ⟨-, rfl, -⟩ := digit1_eq_ok h
  exact List.dropWhile_sublist _

theorem digit1_expand {s ds rest : List Char} (h : digit1 s = .ok ds rest) :
    digit1 (expandLF s) = .ok ds (expandLF rest) := by
  obtain ⟨rfl, rfl, hne⟩ := digit1_eq_ok h
  obtain ⟨ht, hd⟩ := takeWhile_expandLF (P := Char.isDigit) rfl rfl s
  unfold digit1
  rw [ht, hd, if_neg hne]

theorem parse_u32_eq_ok {s : List Char} {v : Nat} {rest : List Char}
    (h : parse_u32_str s = .ok v rest) :
    rest = s.dropWhile Char.isDigit ∧ v = digitsToNat (s.takeWhile Char.isDigit) := by
  unfold parse_u32_str at h
  obtain ⟨ds, r1, h1, h2⟩ := PRes.bind_eq_ok h
  obtain ⟨rfl, rfl, -⟩ := digit1_eq_ok h1
  split at h2
  · cases h2
    exact ⟨rfl, rfl⟩
  · cases h2

theorem parse_u32_sublist {s : List Char} {v : Nat} {rest : List Char}
    (h : parse_u32_str s = .ok v rest) : List.Sublist rest s := by
  obtain ⟨rfl, -⟩ := parse_u32_eq_ok h
  exact List.dropWhile_sublist _

theorem parse_u32_expand {s : List Char} {v : Nat} {rest : List Char}
    (h : parse_u32_str s = .ok v rest) :
    parse_u32_str (expandLF s) = .ok v (expandLF rest) := by
  unfold parse_u32_str at h ⊢
  obtain ⟨ds, r1, h1, h2⟩ := PRes.bind_eq_ok h
  rw [digit1_expand h1]
  simp only [PRes.bind] at h2 ⊢
  split at h2
  next hlt =>
    cases h2
    rw [if_pos hlt]
  · cases h2

theorem parse_u32_fail {s : List Char} (h : parse_u32_str s = .fail) :
    parse_u32_str (expandLF s) = .fail := by
  unfold parse_u32_str digit1 at h ⊢
  obtain ⟨ht, hd⟩ := takeWhile_expandLF (P := Char.isDigit) rfl rfl s
  rw [ht, hd]
  by_cases he : s.takeWhile Char.isDigit = []
  · rw [if_pos he] at h ⊢
    exact h
  · rw [if_neg he] at h ⊢
    simp only [PRes.bind] at h ⊢
    split at h
    · cases h
    next hge =>
      rw [if_neg hge]

theorem parse_u32_ne_crash (s : List Char) : parse_u32_str s ≠ PRes.crash := by
  unfold parse_u32_str digit1
  split
  · simp [PRes.bind]
  · simp only [PRes.bind]
    split <;> simp

theorem head?_expandLF_iff {s : List Char} {x : Char} (hx1 : x ≠ '\n')
    (hx2 : x ≠ '\r') : (expandLF s).head? = some x ↔ s.head? = some x := by
  cases s with
  | nil => simp [expandLF]
  | cons c r =>
    by_cases hc : c = '\n'
    · subst hc
      rw [expandLF_cons_lf]
      simp only [List.head?_cons, Option.some.injEq]
      constructor
      · intro hh
        exact absurd hh.symm hx2
      · intro hh
        exact absurd hh.symm hx1
    · rw [expandLF_cons_ne hc]
      simp

theorem tail_expandLF_of_head {s : List Char} {x : Char} (hx : x ≠ '\n')
    (h : s.head? = some x) : (expandLF s).tail = expandLF s.tail := by
  cases s with
  | nil => cases h
  | cons c r =>
    simp only [List.head?_cons, Option.some.injEq] at h
    subst h
    rw [expandLF_cons_ne hx]
    rfl

theorem take_one_expandLF {s : List Char} {x : Char} (hx : x ≠ '\n')
    (h : s.head? = some x) : (expandLF s).take 1 = s.take 1 := by
  cases s with
  | nil => cases h
  | cons c r =>
    simp only [List.head?_cons, Option.some.injEq] at h
    subst h
    rw [expandLF_cons_ne hx]
    rfl

theorem take_two_expandLF {s : List Char} {x y : Char} (hx : x ≠ '\n')
    (hy : y ≠ '\n') (h1 : s.head? = some x) (h2 : s.tail.head? = some y) :
    (expandLF s).take 2 = s.take 2 := by
  cases s with
  | nil => cases h1
  | cons c r =>
    cases r with
    | nil => cases h2
    | cons d r2 =>
      simp only [List.head?_cons, Option.some.injEq, List.tail_cons] at h1 h2
      subst h1
      subst h2
      rw [expandLF_cons_ne hx, expandLF_cons_ne hy]
      rfl

theorem isPrefixOf_single {x : Char} {l : List Char} :
    [x].isPrefixOf l = true ↔ l.head? = some x := by
  cases l with
  | nil => simp [List.isPrefixOf]
  | cons c r =>
    simp only [List.isPrefixOf, Bool.and_true, beq_iff_eq, List.head?_cons,
      Option.some.injEq]
    exact eq_comm

theorem tag_single_fail {x : Char} (hx1 : x ≠ '\n') (hx2 : x ≠ '\r')
    {s : List Char} (h : tag [x] s = .fail) :
    tag [x] (expandLF s) = .fail := by
  unfold tag at h ⊢
  split at h
  · cases h
  next hp =>
    rw [if_neg]
    intro hp2
    exact hp (isPrefixOf_single.mpr
      ((head?_expandLF_iff hx1 hx2).mp (isPrefixOf_single.mp hp2)))

theorem float_mantissa_sublist {s m rest : List Char}
    (h : float_mantissa s = .ok m rest) : List.Sublist rest s := by
  unfold float_mantissa at h
  split at h
  · split at h
    · split at h
      · cases h
      · cases h
        exact (List.dropWhile_sublist _).trans (List.tail_sublist s)
    · cases h
  · split at h
    · cases h
      exact ((List.dropWhile_sublist _).trans (List.tail_sublist _)).trans
        (List.dropWhile_sublist _ : (s.dropWhile Char.isDigit).Sublist s)
    · cases h
      exact List.dropWhile_sublist _

theorem float_mantissa_expand {s m rest : List Char}
    (h : float_mantissa s = .ok m rest) :
    float_mantissa (expandLF s) = .ok m (expandLF rest) := by
  obtain ⟨ht, hd⟩ := takeWhile_expandLF (P := Char.isDigit) rfl rfl s
  unfold float_mantissa at h ⊢
  rw [ht, hd]
  split at h
  next hemp =>
    rw [if_pos hemp]
    split at h
    next hdot =>
      rw [if_pos ((head?_expandLF_iff (by decide) (by decide)).mpr hdot),
        tail_expandLF_of_head (by decide) hdot]
      obtain ⟨htt, htd⟩ := takeWhile_expandLF (P := Char.isDigit) rfl rfl s.tail
      rw [htt, htd]
      split at h
      · cases h
      next hne =>
        cases h
        rw [if_neg hne]
    next hdot => cases h
  next hemp =>
    rw [if_neg hemp]
    split at h
    next hdot =>
      rw [if_pos ((head?_expandLF_iff (by decide) (by decide)).mpr hdot),
        tail_expandLF_of_head (by decide) hdot]
      obtain ⟨htt, htd⟩ :=
        takeWhile_expandLF (P := Char.isDigit) rfl rfl (s.dropWhile Char.isDigit).tail
      rw [htt, htd]
      cases h
      rfl
    next hdot =>
      rw [if_neg (fun hh =>
        hdot ((head?_expandLF_iff (by decide) (by decide)).mp hh))]
      cases h
      rfl

theorem float_exponent_sublist {s e rest : List Char}
    (h : float_exponent s = .ok e rest) : List.Sublist rest s := by
  unfold float_exponent at h
  split at h
  · split at h
    · split at h
      · cases h
      · cases h
        exact ((List.dropWhile_sublist _).trans (List.tail_sublist _)).trans
          (List.tail_sublist s)
    · split at h
      · cases h
      · cases h
        exact (List.dropWhile_sublist _).trans (List.tail_sublist s)
  · cases h
    exact List.Sublist.refl s

theorem float_exponent_expand {s e rest : List Char}
    (h : float_exponent s = .ok e rest) :
    float_exponent (expandLF s) = .ok e (expandLF rest) := by
  unfold float_exponent at h ⊢
  split at h
  next hee =>
    have hee2 : (expandLF s).head? = some 'e' ∨ (expandLF s).head? = some 'E' := by
      rcases hee with h1 | h1
      · exact Or.inl ((head?_expandLF_iff (by decide) (by decide)).mpr h1)
      · exact Or.inr ((head?_expandLF_iff (by decide) (by decide)).mpr h1)
    have htail : (expandLF s).tail = expandLF s.tail := by
      rcases hee with h1 | h1
      · exact tail_expandLF_of_head (by decide) h1
      · exact tail_expandLF_of_head (by decide) h1
    rw [if_pos hee2, htail]
    split at h
    next hsgn =>
      have hsgn2 : (expandLF s.tail).head? = some '+' ∨
          (expandLF s.tail).head? = some '-' := by
        rcases hsgn with h1 | h1
        · exact Or.inl ((head?_expandLF_iff (by decide) (by decide)).mpr h1)
        · exact Or.inr ((head?_expandLF_iff (by decide) (by decide)).mpr h1)
      have htail2 : (expandLF s.tail).tail = expandLF s.tail.tail := by
        rcases hsgn with h1 | h1
        · exact tail_expandLF_of_head (by decide) h1
        · exact tail_expandLF_of_head (by decide) h1
      rw [if_pos hsgn2, htail2]
      obtain ⟨htt, htd⟩ := takeWhile_expandLF (P := Char.isDigit) rfl rfl s.tail.tail
      rw [htt, htd]
      split at h
      · cases h
      next hne =>
        cases h
        rw [if_neg hne]
        have htk : (expandLF s).take 2 = s.take 2 := by
          rcases hee with h1 | h1 <;> rcases hsgn with h2 | h2 <;>
            exact take_two_expandLF (by decide) (by decide) h1 h2
        rw [htk]
    next hsgn =>
      have hsgn2 : ¬ ((expandLF s.tail).head? = some '+' ∨
          (expandLF s.tail).head? = some '-') := by
        intro hh
        apply hsgn
        rcases hh with h1 | h1
        · exact Or.inl ((head?_expandLF_iff (by decide) (by decide)).mp h1)
        · exact Or.inr ((head?_expandLF_iff (by decide) (by decide)).mp h1)
      rw [if_neg hsgn2]
      obtain ⟨htt, htd⟩ := takeWhile_expandLF (P := Char.isDigit) rfl rfl s.tail
      rw [htt, htd]
      split at h
      · cases h
      next hne =>
        cases h
        rw [if_neg hne]
        have htk : (expandLF s).take 1 = s.take 1 := by
          rcases hee with h1 | h1 <;> exact take_one_expandLF (by decide) h1
        rw [htk]
  next hee =>
    have hee2 : ¬ ((expandLF s).head? = some 'e' ∨
        (expandLF s).head? = some 'E') := by
      intro hh
      apply hee
      rcases hh with h1 | h1
      · exact Or.inl ((head?_expandLF_iff (by decide) (by decide)).mp h1)
      · exact Or.inr ((head?_expandLF_iff (by decide) (by decide)).mp h1)
    rw [if_neg hee2]
    cases h
    rfl

theorem float_sublist {s tok rest : List Char} (h : float s = .ok tok rest) :
    List.Sublist rest s := by
  unfold float at h
  split at h
  · obtain ⟨m, s2, h1, h2⟩ := PRes.bind_eq_ok h
    obtain ⟨e, s3, h3, h4⟩ := PRes.bind_eq_ok h2
    cases h4
    exact ((float_exponent_sublist h3).trans (float_mantissa_sublist h1)).trans
      (List.tail_sublist s)
  · obtain ⟨m, s2, h1, h2⟩ := PRes.bind_eq_ok h
    obtain ⟨e, s3, h3, h4⟩ := PRes.bind_eq_ok h2
    cases h4
    exact (float_exponent_sublist h3).trans (float_mantissa_sublist h1)

theorem float_expand {s tok rest : List Char} (h : float s = .ok tok rest) :
    float (expandLF s) = .ok tok (expandLF rest) := by
  unfold float at h ⊢
  split at h
  next hsgn =>
    have hsgn2 : (expandLF s).head? = some '+' ∨ (expandLF s).head? = some '-' := by
      rcases hsgn with h1 | h1
      · exact Or.inl ((head?_expandLF_iff (by decide) (by decide)).mpr h1)
      · exact Or.inr ((head?_expandLF_iff (by decide) (by decide)).mpr h1)
    have htail : (expandLF s).tail = expandLF s.tail := by
      rcases hsgn with h1 | h1
      · exact tail_expandLF_of_head (by decide) h1
      · exact tail_expandLF_of_head (by decide) h1
    rw [if_pos hsgn2, htail]
    obtain ⟨m, s2, h1, h2⟩ := PRes.bind_eq_ok h
    obtain ⟨e, s3, h3, h4⟩ := PRes.bind_eq_ok h2
    cases h4
    rw [float_mantissa_expand h1]
    simp only [PRes.bind]
    rw [float_exponent_expand h3]
    simp only [PRes.bind]
    have htk : (expandLF s).take 1 = s.take 1 := by
      rcases hsgn with h1 | h1 <;> exact take_one_expandLF (by decide) h1
    rw [htk]
  next hsgn =>
    have hsgn2 : ¬ ((expandLF s).head? = some '+' ∨
        (expandLF s).head? = some '-') := by
      intro hh
      apply hsgn
      rcases hh with h1 | h1
      · exact Or.inl ((head?_expandLF_iff (by decide) (by decide)).mp h1)
      · exact Or.inr ((head?_expandLF_iff (by decide) (by decide)).mp h1)
    rw [if_neg hsgn2]
    obtain ⟨m, s2, h1, h2⟩ := PRes.bind_eq_ok h
    obtain ⟨e, s3, h3, h4⟩ := PRes.bind_eq_ok h2
    cases h4
    rw [float_mantissa_expand h1]
    simp only [PRes.bind]
    rw [float_exponent_expand h3]

theorem version_sublist {s : List Char} {v : Nat} {rest : List Char}
    (h : version s = .ok v rest) : List.Sublist rest s := by
  unfold version at h
  obtain ⟨a, r1, h1, h2⟩ := PRes.bind_eq_ok h
  obtain ⟨ds, r2, h3, h4⟩ := PRes.bind_eq_ok h2
  split at h4
  · cases h4
    exact (digit1_sublist h3).trans (tag_sublist h1)
  · cases h4

theorem version_expand {s : List Char} {v : Nat} {rest : List Char}
    (h : version s = .ok v rest) : version (expandLF s) = .ok v (expandLF rest) := by
  unfold version at h ⊢
  obtain ⟨a, r1, h1, h2⟩ := PRes.bind_eq_ok h
  obtain ⟨ds, r2, h3, h4⟩ := PRes.bind_eq_ok h2
  cases a
  rw [tag_expand (by decide) h1]
  simp only [PRes.bind]
  rw [digit1_expand h3]
  simp only [PRes.bind]
  split at h4
  next hlt =>
    cases h4
    rw [if_pos hlt]
  · cases h4

theorem name_sublist {s v rest : List Char} (h : name s = .ok v rest) :
    List.Sublist rest s := by
  unfold name at h
  obtain ⟨a, r1, h1, h2⟩ := PRes.bind_eq_ok h
  exact (not_line_ending_sublist h2).trans (tag_sublist h1)

theorem name_expand {s v rest : List Char} (hr : '\r' ∉ s)
    (h : name s = .ok v rest) : name (expandLF s) = .ok v (expandLF rest) := by
  unfold name at h ⊢
  obtain ⟨a, r1, h1, h2⟩ := PRes.bind_eq_ok h
  cases a
  rw [tag_expand (by decide) h1]
  simp only [PRes.bind]
  exact not_line_ending_expand (fun hm => hr ((tag_sublist h1).subset hm)) h2

theorem frequency_sublist {s : List Char} {v : Nat} {rest : List Char}
    (h : frequency s = .ok v rest) : List.Sublist rest s := by
  unfold frequency at h
  obtain ⟨a, r1, h1, h2⟩ := PRes.bind_eq_ok h
  exact (parse_u32_sublist h2).trans (tag_sublist h1)

theorem frequency_expand {s : List Char} {v : Nat} {rest : List Char}
    (h : frequency s = .ok v rest) :
    frequency (expandLF s) = .ok v (expandLF rest) := by
  unfold frequency at h ⊢
  obtain ⟨a, r1, h1, h2⟩ := PRes.bind_eq_ok h
  cases a
  rw [tag_expand (by decide) h1]
  simp only [PRes.bind]
  exact parse_u32_expand h2

theorem signal_type_sublist {s : List Char} {ty : SignalType} {rest : List Char}
    (h : signal_type s = .ok ty rest) : List.Sublist rest s := by
  unfold signal_type at h
  obtain ⟨a, r1, h1, h2⟩ := PRes.bind_eq_ok h
  obtain ⟨b, r2, h3, h4⟩ := PRes.bind_eq_ok h2
  cases h4
  exact (tag_sublist h3).trans (tag_sublist h1)

theorem signal_type_expand {s : List Char} {ty : SignalType} {rest : List Char}
    (h : signal_type s = .ok ty rest) :
    signal_type (expandLF s) = .ok ty (expandLF rest) := by
  unfold signal_type at h ⊢
  obtain ⟨a, r1, h1, h2⟩ := PRes.bind_eq_ok h
  obtain ⟨b, r2, h3, h4⟩ := PRes.bind_eq_ok h2
  cases a
  cases b
  cases h4
  rw [tag_expand (by decide) h1]
  simp only [PRes.bind]
  rw [tag_expand (by decide) h3]

theorem duty_cycle_sublist {s v rest : List Char} (h : duty_cycle s = .ok v rest) :
    List.Sublist rest s := by
  unfold duty_cycle at h
  obtain ⟨a, r1, h1, h2⟩ := PRes.bind_eq_ok h
  exact (float_sublist h2).trans (tag_sublist h1)

theorem duty_cycle_expand {s v rest : List Char} (h : duty_cycle s = .ok v rest) :
    duty_cycle (expandLF s) = .ok v (expandLF rest) := by
  unfold duty_cycle at h ⊢
  obtain ⟨a, r1, h1, h2⟩ := PRes.bind_eq_ok h
  cases a
  rw [tag_expand (by decide) h1]
  simp only [PRes.bind]
  exact float_expand h2

theorem data_list_loop_sublist (f : Nat) (s : List Char) :
    List.Sublist (data_list_loop f s).2 s := by
  induction f generalizing s with
  | zero => exact List.Sublist.refl s
  | succ f ih =>
    cases ht : tag (" ".toList) s with
    | ok a s1 =>
      cases hp : parse_u32_str s1 with
      | ok v s2 =>
        simp only [data_list_loop, ht, hp]
        exact ((ih s2).trans (parse_u32_sublist hp)).trans (tag_sublist ht)
      | fail =>
        simp only [data_list_loop, ht, hp]
        exact List.Sublist.refl s
      | crash => exact absurd hp (parse_u32_ne_crash s1)
    | fail =>
      simp only [data_list_loop, ht]
      exact List.Sublist.refl s
    | crash =>
      simp only [data_list_loop, ht]
      exact List.Sublist.refl s

theorem tag_nil_not_ok {t : List Char} {a : Unit} {r : List Char}
    (hne : t ≠ []) (h : tag t [] = .ok a r) : False := by
  unfold tag at h
  split at h
  next hp =>
    obtain ⟨u, hu⟩ := List.isPrefixOf_iff_prefix.mp hp
    cases t with
    | nil => exact hne rfl
    | cons c l => cases hu
  next => cases h

theorem data_list_loop_expand (f : Nat) (s : List Char) (g : Nat)
    (hf : s.length ≤ f) (hg : (expandLF s).length ≤ g) :
    data_list_loop g (expandLF s) =
      ((data_list_loop f s).1, expandLF (data_list_loop f s).2) := by
  induction f generalizing s g with
  | zero =>
    have hs : s = [] := List.eq_nil_of_length_eq_zero (Nat.le_zero.mp hf)
    subst hs
    cases g with
    | zero => rfl
    | succ g => rfl
  | succ f ih =>
    cases ht : tag (" ".toList) s with
    | ok a s1 =>
      cases a
      have hs := tag_eq_ok ht
      cases hp : parse_u32_str s1 with
      | ok v s2 =>
        have ht2 := tag_expand (by decide) ht
        have hp2 := parse_u32_expand hp
        cases g with
        | zero =>
          exfalso
          have hnil : expandLF s = [] :=
            List.eq_nil_of_length_eq_zero (Nat.le_zero.mp hg)
          rw [expandLF_nil_iff] at hnil
          rw [hnil] at ht
          exact tag_nil_not_ok (by decide) ht
        | succ g =>
          simp only [data_list_loop, ht, hp, ht2, hp2]
          have hlen1 : s.length = s1.length + 1 := by
            rw [hs]
            simp
          have hfs : s2.length ≤ f := by
            have h2 := (parse_u32_sublist hp).length_le
            omega
          have hexp : expandLF s = ' ' :: expandLF s1 := by
            rw [hs]
            exact expandLF_cons_ne (by decide) s1
          have hgs : (expandLF s2).length ≤ g := by
            have h2 := (parse_u32_sublist hp2).length_le
            have h3 : (expandLF s).length = (expandLF s1).length + 1 := by
              rw [hexp]
              simp
            omega
          rw [ih s2 g hfs hgs]
      | fail =>
        have ht2 := tag_expand (by decide) ht
        have hp2 := parse_u32_fail hp
        cases g with
        | zero =>
          exfalso
          have hnil : expandLF s = [] :=
            List.eq_nil_of_length_eq_zero (Nat.le_zero.mp hg)
          rw [expandLF_nil_iff] at hnil
          rw [hnil] at ht
          exact tag_nil_not_ok (by decide) ht
        | succ g => simp only [data_list_loop, ht, hp, ht2, hp2]
      | crash => exact absurd hp (parse_u32_ne_crash s1)
    | fail =>
      have ht2 : tag (" ".toList) (expandLF s) = PRes.fail :=
        tag_single_fail (by decide) (by decide) ht
      cases g with
      | zero => simp only [data_list_loop, ht]
      | succ g => simp only [data_list_loop, ht, ht2]
    | crash =>
      exfalso
      unfold tag at ht
      split at ht <;> cases ht

theorem separated_list0_sublist (s : List Char) :
    List.Sublist (separated_list0_u32 s).2 s := by
  unfold separated_list0_u32
  cases hp : parse_u32_str s with
  | ok v s1 =>
    simp only []
    exact (data_list_loop_sublist s1.length s1).trans (parse_u32_sublist hp)
  | fail => exact List.Sublist.refl s
  | crash => exact List.Sublist.refl s

theorem separated_list0_expand (s : List Char) :
    separated_list0_u32 (expandLF s) =
      ((separated_list0_u32 s).1, expandLF (separated_list0_u32 s).2) := by
  unfold separated_list0_u32
  cases hp : parse_u32_str s with
  | ok v s1 =>
    rw [parse_u32_expand hp]
    show (v :: (data_list_loop (expandLF s1).length (expandLF s1)).1,
        (data_list_loop (expandLF s1).length (expandLF s1)).2) =
      (v :: (data_list_loop s1.length s1).1, expandLF (data_list_loop s1.length s1).2)
    rw [data_list_loop_expand s1.length s1 (expandLF s1).length le_rfl le_rfl]
  | fail =>
    rw [parse_u32_fail hp]
  | crash => exact absurd hp (parse_u32_ne_crash s)

theorem data_sublist {s : List Char} {v : List Nat} {rest : List Char}
    (h : data s = .ok v rest) : List.Sublist rest s := by
  unfold data at h
  obtain ⟨a, r1, h1, h2⟩ := PRes.bind_eq_ok h
  cases h2
  exact (separated_list0_sublist r1).trans (tag_sublist h1)

theorem data_expand {s : List Char} {v : List Nat} {rest : List Char}
    (h : data s = .ok v rest) : data (expandLF s) = .ok v (expandLF rest) := by
  unfold data at h ⊢
  obtain ⟨a, r1, h1, h2⟩ := PRes.bind_eq_ok h
  cases a
  cases h2
  rw [tag_expand (by decide) h1]
  simp only [PRes.bind]
  rw [separated_list0_expand r1]

theorem saved_signal_sublist {s : List Char} {sig : RawSignal} {rest : List Char}
    (h : saved_signal s = .ok sig rest) :
    List.Sublist rest s ∧ rest.length < s.length := by
  unfold saved_signal at h
  obtain ⟨a1, r1, h1, h⟩ := PRes.bind_eq_ok h
  obtain ⟨a2, r2, h2, h⟩ := PRes.bind_eq_ok h
  obtain ⟨a3, r3, h3, h⟩ := PRes.bind_eq_ok h
  obtain ⟨nm, r4, h4, h⟩ := PRes.bind_eq_ok h
  obtain ⟨a5, r5, h5, h⟩ := PRes.bind_eq_ok h
  obtain ⟨ty, r6, h6, h⟩ := PRes.bind_eq_ok h
  obtain ⟨a7, r7, h7, h⟩ := PRes.bind_eq_ok h
  obtain ⟨fr, r8, h8, h⟩ := PRes.bind_eq_ok h
  obtain ⟨a9, r9, h9, h⟩ := PRes.bind_eq_ok h
  obtain ⟨dc, r10, h10, h⟩ := PRes.bind_eq_ok h
  obtain ⟨a11, r11, h11, h⟩ := PRes.bind_eq_ok h
  obtain ⟨dt, r12, h12, h⟩ := PRes.bind_eq_ok h
  obtain ⟨a13, r13, h13, h⟩ := PRes.bind_eq_ok h
  cases h
  have hsub : List.Sublist rest r1 :=
    (((((((((((line_ending_sublist h13).trans (data_sublist h12)).trans
      (line_ending_sublist h11)).trans (duty_cycle_sublist h10)).trans
      (line_ending_sublist h9)).trans (frequency_sublist h8)).trans
      (line_ending_sublist h7)).trans (signal_type_sublist h6)).trans
      (line_ending_sublist h5)).trans (name_sublist h4)).trans
      (line_ending_sublist h3)).trans (not_line_ending_sublist h2)
  have hs := tag_eq_ok h1
  constructor
  · rw [hs]
    exact hsub.trans (List.sublist_append_right _ r1)
  · have h2l := hsub.length_le
    have h3l : s.length = r1.length + 1 := by
      rw [hs]
      rfl
    omega

theorem saved_signal_expand {s : List Char} {sig : RawSignal} {rest : List Char}
    (hr : '\r' ∉ s) (h : saved_signal s = .ok sig rest) :
    saved_signal (expandLF s) = .ok sig (expandLF rest) := by
  unfold saved_signal at h ⊢
  obtain ⟨a1, r1, h1, h⟩ := PRes.bind_eq_ok h
  obtain ⟨a2, r2, h2, h⟩ := PRes.bind_eq_ok h
  obtain ⟨a3, r3, h3, h⟩ := PRes.bind_eq_ok h
  obtain ⟨nm, r4, h4, h⟩ := PRes.bind_eq_ok h
  obtain ⟨a5, r5, h5, h⟩ := PRes.bind_eq_ok h
  obtain ⟨ty, r6, h6, h⟩ := PRes.bind_eq_ok h
  obtain ⟨a7, r7, h7, h⟩ := PRes.bind_eq_ok h
  obtain ⟨fr, r8, h8, h⟩ := PRes.bind_eq_ok h
  obtain ⟨a9, r9, h9, h⟩ := PRes.bind_eq_ok h
  obtain ⟨dc, r10, h10, h⟩ := PRes.bind_eq_ok h
  obtain ⟨a11, r11, h11, h⟩ := PRes.bind_eq_ok h
  obtain ⟨dt, r12, h12, h⟩ := PRes.bind_eq_ok h
  obtain ⟨a13, r13, h13, h⟩ := PRes.bind_eq_ok h
  cases a1; cases a3; cases a5; cases a7; cases a9; cases a11; cases a13
  cases h
  have hm1 : '\r' ∉ r1 := fun hm => hr ((tag_sublist h1).subset hm)
  have hm2 : '\r' ∉ r2 := fun hm => hm1 ((not_line_ending_sublist h2).subset hm)
  have hm3 : '\r' ∉ r3 := fun hm => hm2 ((line_ending_sublist h3).subset hm)
  have hm4 : '\r' ∉ r4 := fun hm => hm3 ((name_sublist h4).subset hm)
  have hm5 : '\r' ∉ r5 := fun hm => hm4 ((line_ending_sublist h5).subset hm)
  have hm6 : '\r' ∉ r6 := fun hm => hm5 ((signal_type_sublist h6).subset hm)
  have hm7 : '\r' ∉ r7 := fun hm => hm6 ((line_ending_sublist h7).subset hm)
  have hm8 : '\r' ∉ r8 := fun hm => hm7 ((frequency_sublist h8).subset hm)
  have hm9 : '\r' ∉ r9 := fun hm => hm8 ((line_ending_sublist h9).subset hm)
  have hm10 : '\r' ∉ r10 := fun hm => hm9 ((duty_cycle_sublist h10).subset hm)
  have hm11 : '\r' ∉ r11 := fun hm => hm10 ((line_ending_sublist h11).subset hm)
  have hm12 : '\r' ∉ r12 := fun hm => hm11 ((data_sublist h12).subset hm)
  rw [tag_expand (by decide) h1]
  simp only [PRes.bind]
  rw [not_line_ending_expand hm1 h2]
  simp only [PRes.bind]
  rw [line_ending_expand hm2 h3]
  simp only [PRes.bind]
  rw [name_expand hm3 h4]
  simp only [PRes.bind]
  rw [line_ending_expand hm4 h5]
  simp only [PRes.bind]
  rw [signal_type_expand h6]
  simp only [PRes.bind]
  rw [line_ending_expand hm6 h7]
  simp only [PRes.bind]
  rw [frequency_expand h8]
  simp only [PRes.bind]
  rw [line_ending_expand hm8 h9]
  simp only [PRes.bind]
  rw [duty_cycle_expand h10]
  simp only [PRes.bind]
  rw [line_ending_expand hm10 h11]
  simp only [PRes.bind]
  rw [data_expand h12]
  simp only [PRes.bind]
  rw [line_ending_expand hm12 h13]

theorem signals_loop_stop {f : Nat} {s : List Char} {sigs : List RawSignal}
    {rest : List Char} (hf : s.length ≤ f) (h : signals_loop f s = .ok sigs rest)
    (hne : rest ≠ []) : saved_signal rest = .fail := by
  induction f generalizing s sigs with
  | zero =>
    have hs : s = [] := List.eq_nil_of_length_eq_zero (Nat.le_zero.mp hf)
    cases h
    exact absurd hs hne
  | succ f ih =>
    cases hss : saved_signal s with
    | ok sig r1 =>
      simp only [signals_loop, hss] at h
      cases hloop : signals_loop f r1 with
      | ok sigs2 r2 =>
        simp only [hloop] at h
        cases h
        have hlt := (saved_signal_sublist hss).2
        exact ih (by omega) hloop
      | fail =>
        simp only [hloop] at h
        cases h
      | crash =>
        simp only [hloop] at h
        cases h
    | fail =>
      simp only [signals_loop, hss] at h
      cases h
      exact hss
    | crash =>
      simp only [signals_loop, hss] at h
      cases h

theorem signals_loop_expand {f : Nat} {s : List Char} {sigs : List RawSignal}
    (hr : '\r' ∉ s) (hf : s.length ≤ f) (h : signals_loop f s = .ok sigs [])
    (g : Nat) (hg : (expandLF s).length ≤ g) :
    signals_loop g (expandLF s) = .ok sigs [] := by
  induction f generalizing s sigs g with
  | zero =>
    have hs : s = [] := List.eq_nil_of_length_eq_zero (Nat.le_zero.mp hf)
    subst hs
    cases h
    cases g with
    | zero => rfl
    | succ g => rfl
  | succ f ih =>
    cases hss : saved_signal s with
    | ok sig r1 =>
      simp only [signals_loop, hss] at h
      cases hloop : signals_loop f r1 with
      | ok sigs2 r2 =>
        simp only [hloop] at h
        cases h
        have hss2 := saved_signal_expand hr hss
        have hr1 : '\r' ∉ r1 := fun hm => hr ((saved_signal_sublist hss).1.subset hm)
        have hf1 : r1.length ≤ f := by
          have := (saved_signal_sublist hss).2
          omega
        have hsne : s ≠ [] := by
          intro hh
          rw [hh, show saved_signal [] = PRes.fail from rfl] at hss
          cases hss
        cases g with
        | zero =>
          exfalso
          have hnil : expandLF s = [] :=
            List.eq_nil_of_length_eq_zero (Nat.le_zero.mp hg)
          exact hsne (expandLF_nil_iff.mp hnil)
        | succ g =>
          simp only [signals_loop, hss2]
          have hg1 : (expandLF r1).length ≤ g := by
            have h2 := (saved_signal_sublist hss2).2
            omega
          rw [ih hr1 hf1 hloop g hg1]
      | fail =>
        simp only [hloop] at h
        cases h
      | crash =>
        simp only [hloop] at h
        cases h
    | fail =>
      simp only [signals_loop, hss] at h
      cases h
      cases g with
      | zero => rfl
      | succ g => rfl
    | crash =>
      simp only [signals_loop, hss] at h
      cases h

theorem dump_file_ok_rest_nil {s : List Char} {d : DumpFile} {rest : List Char}
    (h : dump_file s = .ok d rest) : rest = [] := by
  unfold dump_file at h
  obtain ⟨a1, r1, h1, h⟩ := PRes.bind_eq_ok h
  obtain ⟨a2, r2, h2, h⟩ := PRes.bind_eq_ok h
  obtain ⟨v, r3, h3, h⟩ := PRes.bind_eq_ok h
  obtain ⟨a4, r4, h4, h⟩ := PRes.bind_eq_ok h
  cases hloop : signals_loop r4.length r4 with
  | ok sigs r5 =>
    simp only [hloop] at h
    split at h
    next hnil =>
      cases h
      exact hnil
    · cases h
  | fail =>
    simp only [hloop] at h
    cases h
  | crash =>
    simp only [hloop] at h
    cases h

theorem dump_file_header_fail {s : List Char}
    (hnp : ¬ ("Filetype: IR signals file".toList.isPrefixOf s = true)) :
    dump_file s = .fail := by
  unfold dump_file tag
  rw [if_neg hnp]
  rfl

theorem dump_file_expand {s : List Char} {d : DumpFile} (hr : '\r' ∉ s)
    (h : dump_file s = .ok d []) : dump_file (expandLF s) = .ok d [] := by
  unfold dump_file at h ⊢
  obtain ⟨a1, r1, h1, h⟩ := PRes.bind_eq_ok h
  obtain ⟨a2, r2, h2, h⟩ := PRes.bind_eq_ok h
  obtain ⟨v, r3, h3, h⟩ := PRes.bind_eq_ok h
  obtain ⟨a4, r4, h4, h⟩ := PRes.bind_eq_ok h
  cases a1; cases a2; cases a4
  have hm1 : '\r' ∉ r1 := fun hm => hr ((tag_sublist h1).subset hm)
  have hm2 : '\r' ∉ r2 := fun hm => hm1 ((line_ending_sublist h2).subset hm)
  have hm3 : '\r' ∉ r3 := fun hm => hm2 ((version_sublist h3).subset hm)
  have hm4 : '\r' ∉ r4 := fun hm => hm3 ((line_ending_sublist h4).subset hm)
  rw [tag_expand (by decide) h1]
  simp only [PRes.bind]
  rw [line_ending_expand hm1 h2]
  simp only [PRes.bind]
  rw [version_expand h3]
  simp only [PRes.bind]
  rw [line_ending_expand hm3 h4]
  simp only [PRes.bind]
  cases hloop : signals_loop r4.length r4 with
  | ok sigs r5 =>
    simp only [hloop] at h
    split at h
    next hnil =>
      cases h
      rw [signals_loop_expand hm4 le_rfl hloop (expandLF r4).length le_rfl]
      rfl
    · cases h
  | fail =>
    simp only [hloop] at h
    cases h
  | crash =>
    simp only [hloop] at h
    cases h

/-- C7: the dump parser is all-or-nothing: a successful `dump_file` always
consumes the whole document (no trailing content survives), `try_from`
yields a `DumpFile` only for a fully-consumed document, any input that
deviates from the leading `"Filetype: IR signals file"` literal fails, the
record loop stops only at a remainder that fails to parse as a record (so
nonempty trailing content fails the whole document through the
all-consuming check), and a concrete document with trailing garbage is a
parse error. -/
theorem dump_parser_all_or_nothing :
    (∀ input d rest, dump_file input = PRes.ok d rest → rest = []) ∧
    (∀ input d rest, dump_file_try_from input = PRes.ok d rest →
      rest = [] ∧ dump_file input = PRes.ok d []) ∧
    (∀ input, ¬ ("Filetype: IR signals file".toList.isPrefixOf input = true) →
      dump_file input = PRes.fail) ∧
    (∀ f s sigs rest, s.length ≤ f → signals_loop f s = PRes.ok sigs rest →
      rest ≠ [] → saved_signal rest = PRes.fail) ∧
    dump_file ("Filetype: IR signals file\nVersion: 1\nx".toList) = PRes.fail := by
  refine ⟨?_, ?_, ?_, ?_, by rfl⟩
  · intro input d rest h
    exact dump_file_ok_rest_nil h
  · intro input d rest h
    unfold dump_file_try_from at h
    cases hdf : dump_file input with
    | ok d2 r2 =>
      simp only [hdf] at h
      cases h
      have hnil := dump_file_ok_rest_nil hdf
      subst hnil
      exact ⟨rfl, rfl⟩
    | fail =>
      simp only [hdf] at h
      cases h
    | crash =>
      simp only [hdf] at h
      cases h
  · intro input hnp
    exact dump_file_header_fail hnp
  · intro f s sigs rest hf h hne
    exact signals_loop_stop hf h hne

/-- C7 witness: an input that does not start with the header literal fails.
-/
theorem dump_parser_all_or_nothing_witness :
    dump_file ("garbage".toList) = PRes.fail :=
  dump_parser_all_or_nothing.2.2.1 ("garbage".toList) (by decide)

/-- C10: the grammar accepts CRLF wherever it requires a newline: a dump
document with bare-LF line endings (no `'\r'` anywhere) that parses
successfully still parses to the same `DumpFile` after every `'\n'` is
replaced by `"\r\n"`. -/
theorem crlf_line_endings_accepted (input : List Char) (d : DumpFile)
    (hr : '\r' ∉ input) (h : dump_file_try_from input = PRes.ok d []) :
    dump_file_try_from (expandLF input) = PRes.ok d [] := by
  unfold dump_file_try_from at h ⊢
  cases hdf : dump_file input with
  | ok d2 r2 =>
    simp only [hdf] at h
    cases h
    have hnil := dump_file_ok_rest_nil hdf
    subst hnil
    rw [dump_file_expand hr hdf]
  | fail =>
    simp only [hdf] at h
    cases h
  | crash =>
    simp only [hdf] at h
    cases h

/-- C10 witness: the CRLF transport applied to the concrete empty dump of
scenario A. -/
theorem crlf_line_endings_accepted_witness :
    dump_file_try_from (expandLF ("Filetype: IR signals file\nVersion: 1\n".toList)) =
      PRes.ok ⟨1, []⟩ [] :=
  crlf_line_endings_accepted ("Filetype: IR signals file\nVersion: 1\n".toList)
    ⟨1, []⟩ (by decide) rfl

end Flipper
